import Mathlib

/-!
# Verification of the measurement subsystem of nextjs-leaflet-starter

Shallow embedding of the `useMeasurement` hook (distance / area measurement
on a Leaflet map): the geodesic helpers `calculateDistance`,
`calculateTotalDistance`, `calculateArea`, and the session state machine
(`startMeasurement`, map-click point capture, `undoLastPoint`,
`clearMeasurement`, `finishMeasurement`).

JavaScript double arithmetic is modelled by real arithmetic (`ℝ`): the
claims under consideration are about the formulas and the state machine,
not about rounding.  Leaflet objects (circle markers, polyline/polygon
layers) are modelled by the data the engine controls about them: the list
of marker coordinates and the vertex list of the (at most one) polyline
and polygon overlay; `none` means the layer is not on the map.
-/

open Real

namespace Measurement

/-- A Leaflet `LatLng`: latitude and longitude in degrees. -/
structure LatLng where
  lat : ℝ
  lng : ℝ

/-- JavaScript `Math.atan2(y, x)` over the reals (the NaN cases of the
floating-point version do not arise below). -/
noncomputable def atan2 (y x : ℝ) : ℝ :=
  if 0 < x then Real.arctan (y / x)
  else if x < 0 then
    (if 0 ≤ y then Real.arctan (y / x) + π else Real.arctan (y / x) - π)
  else
    (if 0 < y then π / 2 else if y < 0 then -(π / 2) else 0)

/-- Earth radius used by the source (`R = 6371e3` meters). -/
def earthRadius : ℝ := 6371000

/-- `calculateDistance` from the source: Haversine distance between two
coordinates, transcribed line by line. -/
noncomputable def calculateDistance (latlng1 latlng2 : LatLng) : ℝ :=
  let R : ℝ := earthRadius
  let φ1 := latlng1.lat * π / 180
  let φ2 := latlng2.lat * π / 180
  let Δφ := (latlng2.lat - latlng1.lat) * π / 180
  let Δlam := (latlng2.lng - latlng1.lng) * π / 180
  let a := Real.sin (Δφ / 2) * Real.sin (Δφ / 2) +
      Real.cos φ1 * Real.cos φ2 * Real.sin (Δlam / 2) * Real.sin (Δlam / 2)
  let c := 2 * atan2 (Real.sqrt a) (Real.sqrt (1 - a))
  R * c

/-- The pairwise-distance formula exactly as the specification words it:
`R*c` with `c = 2*atan2(sqrt a, sqrt (1-a))`,
`a = sin²(Δφ/2) + cos φ1 * cos φ2 * sin²(Δlam/2)`, where `φ`/`λ` are the
latitude/longitude converted to radians and `Δφ`, `Δlam` their differences. -/
noncomputable def haversineDistanceSpec (p1 p2 : LatLng) : ℝ :=
  let R : ℝ := 6371000
  let φ1 := p1.lat * π / 180
  let φ2 := p2.lat * π / 180
  let lam1 := p1.lng * π / 180
  let lam2 := p2.lng * π / 180
  let dφ := φ2 - φ1
  let dlam := lam2 - lam1
  let a := Real.sin (dφ / 2) ^ 2 + Real.cos φ1 * Real.cos φ2 * Real.sin (dlam / 2) ^ 2
  let c := 2 * atan2 (Real.sqrt a) (Real.sqrt (1 - a))
  R * c

/-- `calculateTotalDistance` from the source: the loop
`for (i = 0; i < pts.length - 1; i++) total += calculateDistance(pts[i], pts[i+1])`,
i.e. the sum of `calculateDistance` over the consecutive pairs
`(pts[i], pts[i+1])`, which are exactly the entries of `pts.zip pts.tail`. -/
noncomputable def calculateTotalDistance (pts : List LatLng) : ℝ :=
  (pts.zip pts.tail).foldl (fun total q => total + calculateDistance q.1 q.2) 0

/-- One iteration of the source's shoelace loop:
`xi * Math.sin(yj) - xj * Math.sin(yi)` with `x`/`y` the longitude/latitude
in radians of the two points. -/
noncomputable def cyclicTerm (p q : LatLng) : ℝ :=
  p.lng * π / 180 * Real.sin (q.lat * π / 180) -
    q.lng * π / 180 * Real.sin (p.lat * π / 180)

/-- The accumulated shoelace sum of `calculateArea`'s loop:
`for (i = 0; i < n; i++) { j = (i+1) % n; area += xi*sin(yj) - xj*sin(yi) }`
(all indices are in range, so `getD` never takes its default). -/
noncomputable def shoelaceSum (pts : List LatLng) : ℝ :=
  (List.range pts.length).foldl
    (fun area i =>
      area + cyclicTerm (pts.getD i ⟨0, 0⟩) (pts.getD ((i + 1) % pts.length) ⟨0, 0⟩))
    0

/-- `calculateArea` from the source: `0` for fewer than 3 points, otherwise
`Math.abs(area * R * R / 2)` applied to the accumulated shoelace sum. -/
noncomputable def calculateArea (pts : List LatLng) : ℝ :=
  if pts.length < 3 then 0
  else |shoelaceSum pts * earthRadius * earthRadius / 2|

/-- The polygon-area formula exactly as the specification words it: zero for
fewer than 3 points, otherwise `|sum| * R² / 2` where `sum` accumulates
`xi*sin(yj) - xj*sin(yi)` over each consecutive pair `(i, j = i+1 mod n)`,
with `xi`, `yi` the longitude and latitude of point `i` in radians. -/
noncomputable def polygonAreaSpec (pts : List LatLng) : ℝ :=
  if pts.length < 3 then 0
  else
    let n := pts.length
    let x := fun i => (pts.getD i ⟨0, 0⟩).lng * π / 180
    let y := fun i => (pts.getD i ⟨0, 0⟩).lat * π / 180
    |∑ i in Finset.range n,
        (x i * Real.sin (y ((i + 1) % n)) - x ((i + 1) % n) * Real.sin (y i))| *
      (6371000 : ℝ) ^ 2 / 2

/-- Sum of a binary term over the consecutive pairs of a list (structural
form of the loops in `calculateTotalDistance` and `calculateArea`). -/
noncomputable def consecSum (t : LatLng → LatLng → ℝ) : List LatLng → ℝ
  | a :: b :: rest => t a b + consecSum t (b :: rest)
  | _ => 0

/-! ## The measurement session state machine

The hook's React state and refs, and the five operations of the
`useMeasurement` hook.  Leaflet layers are modelled by the data the engine
hands to Leaflet: the vertex list of the (at most one) polyline and polygon
overlay (`none` = not on the map) and the list of circle-marker
coordinates.  `listening` records whether the `'click'` handler installed
by `startMeasurement` is currently attached. -/

/-- The source's `MeasurementMode` without its `null` case; the session
stores an `Option MMode`, `none` being the spec's `Inactive`. -/
inductive MMode where
  | distance
  | area
deriving DecidableEq

/-- The live state of the `useMeasurement` hook. -/
@[ext]
structure Session where
  mode : Option MMode
  points : List LatLng
  distance : ℝ
  area : ℝ
  polyline : Option (List LatLng)
  polygon : Option (List LatLng)
  markers : List LatLng
  listening : Bool

/-- Initial hook state: `useState(null)`, `useState([])`, `useState(0)`,
`useState(0)`, null overlay refs, empty marker ref, no click handler. -/
noncomputable def initialSession : Session :=
  { mode := none, points := [], distance := 0, area := 0,
    polyline := none, polygon := none, markers := [], listening := false }

/-- `startMeasurement` from the source: returns immediately when the map
ref is null or no mode is given; otherwise runs `clearMeasurement`, sets
the new mode, and attaches the click handler. -/
noncomputable def startMeasurement (mapAttached : Bool)
    (measurementMode : Option MMode) (s : Session) : Session :=
  if ¬ mapAttached ∨ measurementMode = none then s
  else
    { mode := measurementMode, points := [], distance := 0, area := 0,
      polyline := none, polygon := none, markers := [], listening := true }

/-- The `handleMapClick` handler installed by `startMeasurement`: appends
the clicked coordinate together with its circle marker, then — for the
active mode — recomputes the total distance and draws/updates the polyline
once 2 points exist, or recomputes the area and draws/updates the polygon
once 3 points exist.  A click is delivered only while a handler is
attached (`listening`); the handler's captured `measurementMode` equals
the session's `mode`, which no operation changes while the handler stays
attached. -/
noncomputable def handleMapClick (c : LatLng) (s : Session) : Session :=
  if ¬ s.listening then s
  else
    let updated := s.points ++ [c]
    let s1 := { s with points := updated, markers := s.markers ++ [c] }
    match s.mode with
    | some MMode.distance =>
        if updated.length > 1 then
          { s1 with distance := calculateTotalDistance updated,
                    polyline := some updated }
        else s1
    | some MMode.area =>
        if updated.length > 2 then
          { s1 with area := calculateArea updated, polygon := some updated }
        else s1
    | none => s1

/-- `undoLastPoint` from the source: no-op on an empty point list;
otherwise pops the last point and its marker, then — for the active mode —
either recomputes the total and updates the overlay in place (still above
the threshold) or zeroes the total and removes the overlay (at or below
it). -/
noncomputable def undoLastPoint (s : Session) : Session :=
  if s.points.length = 0 then s
  else
    let updated := s.points.dropLast
    let s1 := { s with points := updated, markers := s.markers.dropLast }
    match s.mode with
    | some MMode.distance =>
        if updated.length > 1 then
          { s1 with distance := calculateTotalDistance updated,
                    polyline := s1.polyline.map fun _ => updated }
        else
          { s1 with distance := 0, polyline := none }
    | some MMode.area =>
        if updated.length > 2 then
          { s1 with area := calculateArea updated,
                    polygon := s1.polygon.map fun _ => updated }
        else
          { s1 with area := 0, polygon := none }
    | none => s1

/-- `clearMeasurement` from the source: returns immediately when the map
ref is null; otherwise removes all markers and both overlays, detaches the
click handler, and resets every state field. -/
noncomputable def clearMeasurement (mapAttached : Bool) (s : Session) : Session :=
  if ¬ mapAttached then s
  else
    { mode := none, points := [], distance := 0, area := 0,
      polyline := none, polygon := none, markers := [], listening := false }

/-- `finishMeasurement` from the source: returns immediately when the map
ref is null; otherwise detaches the click handler and sets the mode to
`null`, leaving points, totals, markers and overlays in place. -/
noncomputable def finishMeasurement (mapAttached : Bool) (s : Session) : Session :=
  if ¬ mapAttached then s
  else { s with mode := none, listening := false }

/-- Derived-state invariant of the data model (spec §3): while a mode is
active, the mode's total equals its recomputation from `points`, its
overlay tracks the point list above the 2 resp. 3 point threshold and is absent
below it, and the other mode's total and overlay stay cleared. -/
def Consistent (s : Session) : Prop :=
  (s.mode = some MMode.distance →
      s.distance = calculateTotalDistance s.points ∧
      s.polyline = (if 2 ≤ s.points.length then some s.points else none) ∧
      s.polygon = none ∧ s.area = 0) ∧
  (s.mode = some MMode.area →
      s.area = calculateArea s.points ∧
      s.polygon = (if 3 ≤ s.points.length then some s.points else none) ∧
      s.polyline = none ∧ s.distance = 0)

/-- Session states reachable while a measurement is in progress: a fresh
`startMeasurement` on an attached map followed by any number of map clicks
(`addPoint`) and undos. -/
inductive ReachableActive : Session → Prop where
  | start (md : MMode) (s : Session) :
      ReachableActive (startMeasurement true (some md) s)
  | click (c : LatLng) {s : Session} (hs : ReachableActive s) :
      ReachableActive (handleMapClick c s)
  | undo {s : Session} (hs : ReachableActive s) :
      ReachableActive (undoLastPoint s)

/-- A concrete session: fresh Distance mode with one captured point at the
origin (the state after `startMeasurement` and one click at (0,0)). -/
noncomputable def sampleDistanceSession : Session :=
  { mode := some MMode.distance, points := [⟨0, 0⟩], distance := 0, area := 0,
    polyline := none, polygon := none, markers := [⟨0, 0⟩], listening := true }

/-- A left fold that only adds terms equals the fold from `0` shifted by the
initial accumulator. -/
theorem foldl_add_shift {α : Type} (f : α → ℝ) (l : List α) (c : ℝ) :
    l.foldl (fun t q => t + f q) c = c + l.foldl (fun t q => t + f q) 0 := by
  induction l generalizing c with
  | nil => simp
  | cons a l ih =>
    simp only [List.foldl_cons]
    rw [ih (c + f a), ih (0 + f a)]
    ring

/-- The source's accumulation loop over `List.range n` computes the
`Finset.range` sum of its per-index term. -/
theorem foldl_range_eq_sum (f : ℕ → ℝ) (n : ℕ) :
    (List.range n).foldl (fun t i => t + f i) 0 = ∑ i in Finset.range n, f i := by
  induction n with
  | zero => simp
  | succ n ih =>
    rw [List.range_succ, List.foldl_append, Finset.sum_range_succ, ih]
    simp

/-- **C1.** The source's pairwise distance function agrees with the
specification's haversine formula (R = 6 371 000 m, radian conversion,
`a`, `c = 2*atan2(√a, √(1-a))`, distance `R*c`) on every pair of
coordinates. -/
theorem calculateDistance_eq_spec (p1 p2 : LatLng) :
    calculateDistance p1 p2 = haversineDistanceSpec p1 p2 := by
  simp only [calculateDistance, haversineDistanceSpec, earthRadius]
  have hφ : (p2.lat - p1.lat) * π / 180 = p2.lat * π / 180 - p1.lat * π / 180 := by
    ring
  have hlam : (p2.lng - p1.lng) * π / 180 = p2.lng * π / 180 - p1.lng * π / 180 := by
    ring
  rw [hφ, hlam]
  ring_nf

/-- **C2.** The source's polygon area function agrees with the
specification's formula on every list of points: zero below 3 points,
otherwise `|sum| * R² / 2` with the shoelace sum over pairs
`(i, (i+1) mod n)` in radians, so the ring is closed implicitly by the
modulo wrap. -/
theorem calculateArea_eq_spec (pts : List LatLng) :
    calculateArea pts = polygonAreaSpec pts := by
  unfold calculateArea polygonAreaSpec shoelaceSum
  by_cases h : pts.length < 3
  · simp [h]
  · simp only [h, if_neg, reduceIte]
    rw [foldl_range_eq_sum
      (fun i => cyclicTerm (pts.getD i ⟨0, 0⟩) (pts.getD ((i + 1) % pts.length) ⟨0, 0⟩))]
    rw [abs_div, abs_mul, abs_mul]
    have hR : |earthRadius| = 6371000 := by
      rw [earthRadius, abs_of_pos]; norm_num
    rw [hR]
    simp only [cyclicTerm]
    rw [abs_of_pos (by norm_num : (0:ℝ) < 2)]
    ring

theorem consecSum_nil (t : LatLng → LatLng → ℝ) : consecSum t [] = 0 := rfl

theorem consecSum_single (t : LatLng → LatLng → ℝ) (a : LatLng) :
    consecSum t [a] = 0 := rfl

theorem consecSum_cons₂ (t : LatLng → LatLng → ℝ) (a b : LatLng)
    (rest : List LatLng) :
    consecSum t (a :: b :: rest) = t a b + consecSum t (b :: rest) := rfl

/-- Appending one element to a nonempty list adds one consecutive pair,
from the old last element to the new one. -/
theorem consecSum_append_last (t : LatLng → LatLng → ℝ) :
    ∀ (pts : List LatLng) (h : pts ≠ []) (c : LatLng),
      consecSum t (pts ++ [c]) = consecSum t pts + t (pts.getLast h) c := by
  intro pts
  induction pts with
  | nil => intro h; exact absurd rfl h
  | cons a rest ih =>
    intro h c
    cases rest with
    | nil => simp [consecSum_cons₂, consecSum_single, consecSum_nil]
    | cons b rest2 =>
      have hne : b :: rest2 ≠ [] := by simp
      calc consecSum t ((a :: b :: rest2) ++ [c])
          = t a b + consecSum t ((b :: rest2) ++ [c]) := rfl
        _ = t a b + (consecSum t (b :: rest2) + t ((b :: rest2).getLast hne) c) := by
            rw [ih hne c]
        _ = consecSum t (a :: b :: rest2) + t ((a :: b :: rest2).getLast h) c := by
            rw [consecSum_cons₂, List.getLast_cons hne]
            ring

/-- The source's total-distance loop is the consecutive-pair sum of
`calculateDistance`. -/
theorem calculateTotalDistance_eq_consecSum (pts : List LatLng) :
    calculateTotalDistance pts = consecSum calculateDistance pts := by
  induction pts with
  | nil => rfl
  | cons a rest ih =>
    cases rest with
    | nil => rfl
    | cons b rest2 =>
      unfold calculateTotalDistance at *
      rw [consecSum_cons₂, ← ih]
      show (((a, b) :: (b :: rest2).zip rest2).foldl
          (fun total q => total + calculateDistance q.1 q.2) 0) = _
      rw [List.foldl_cons,
        foldl_add_shift (fun q => calculateDistance q.1 q.2)
          ((b :: rest2).zip rest2) (0 + calculateDistance a b)]
      show _ = calculateDistance a b +
        ((b :: rest2).zip rest2).foldl (fun total q => total + calculateDistance q.1 q.2) 0
      ring

/-- Consecutive-pair part of the shoelace sum, with positional indices:
for `i < n - 1` the wrap `(i+1) % n` is just `i+1`. -/
theorem sum_consec_eq_consecSum :
    ∀ pts : List LatLng,
      (∑ i in Finset.range (pts.length - 1),
          cyclicTerm (pts.getD i ⟨0, 0⟩) (pts.getD (i + 1) ⟨0, 0⟩)) =
        consecSum cyclicTerm pts := by
  intro pts
  induction pts with
  | nil => simp [consecSum_nil]
  | cons a rest ih =>
    cases rest with
    | nil => simp [consecSum_single]
    | cons b rest2 =>
      rw [consecSum_cons₂, ← ih]
      have hlen : (a :: b :: rest2).length - 1 = ((b :: rest2).length - 1) + 1 := by
        simp
      rw [hlen, Finset.sum_range_succ']
      simp only [List.getD_cons_succ, List.getD_cons_zero]
      ring

/-- The full shoelace sum of a nonempty list splits into the
consecutive-pair sum plus the wrap-around term from the last point back to
the first. -/
theorem shoelaceSum_structure (a : LatLng) (rest : List LatLng) :
    shoelaceSum (a :: rest) =
      consecSum cyclicTerm (a :: rest) +
        cyclicTerm ((a :: rest).getLast (by simp)) a := by
  unfold shoelaceSum
  rw [foldl_range_eq_sum
    (fun i => cyclicTerm ((a :: rest).getD i ⟨0, 0⟩)
      ((a :: rest).getD ((i + 1) % (a :: rest).length) ⟨0, 0⟩))]
  simp only [List.length_cons]
  rw [Finset.sum_range_succ, Nat.mod_self]
  have hlast : (a :: rest).getD rest.length ⟨0, 0⟩ = (a :: rest).getLast (by simp) := by
    rw [List.getLast_eq_getElem, List.getD_eq_getElem]
    · simp
    · simp
  have hsum : (∑ i in Finset.range rest.length,
      cyclicTerm ((a :: rest).getD i ⟨0, 0⟩)
        ((a :: rest).getD ((i + 1) % (rest.length + 1)) ⟨0, 0⟩)) =
      ∑ i in Finset.range rest.length,
        cyclicTerm ((a :: rest).getD i ⟨0, 0⟩) ((a :: rest).getD (i + 1) ⟨0, 0⟩) := by
    refine Finset.sum_congr rfl ?_
    intro i hi
    rw [Finset.mem_range] at hi
    have hmod : (i + 1) % (rest.length + 1) = i + 1 := by
      apply Nat.mod_eq_of_lt
      omega
    rw [hmod]
  have hc := sum_consec_eq_consecSum (a :: rest)
  simp only [List.length_cons, Nat.add_sub_cancel] at hc
  rw [hsum, hc, hlast]
  simp [List.getD_cons_zero]

theorem cyclicTerm_self (p : LatLng) : cyclicTerm p p = 0 := by
  unfold cyclicTerm; ring

theorem consecSum_cons (t : LatLng → LatLng → ℝ) (a : LatLng) (L : List LatLng)
    (h : L ≠ []) : consecSum t (a :: L) = t a (L.head h) + consecSum t L := by
  cases L with
  | nil => exact absurd rfl h
  | cons b l => rfl

/-- Inserting a consecutive duplicate vertex does not change the
consecutive-pair shoelace sum, since the extra pair contributes
`cyclicTerm p p = 0`. -/
theorem consecSum_cyclicTerm_dup (p : LatLng) (ys : List LatLng) :
    ∀ xs : List LatLng,
      consecSum cyclicTerm (xs ++ p :: p :: ys) = consecSum cyclicTerm (xs ++ p :: ys) := by
  intro xs
  induction xs with
  | nil =>
    simp only [List.nil_append]
    rw [consecSum_cons₂, cyclicTerm_self, zero_add]
  | cons a xs ih =>
    have hne₁ : xs ++ p :: p :: ys ≠ [] := by simp
    have hne₂ : xs ++ p :: ys ≠ [] := by simp
    have hhead : (xs ++ p :: p :: ys).head hne₁ = (xs ++ p :: ys).head hne₂ := by
      cases xs with
      | nil => rfl
      | cons b xs2 => rfl
    simp only [List.cons_append]
    rw [consecSum_cons cyclicTerm a _ hne₁, consecSum_cons cyclicTerm a _ hne₂,
      hhead, ih]

/-- Inserting a consecutive duplicate vertex does not change the full
cyclic shoelace sum. -/
theorem shoelaceSum_dup (p : LatLng) (xs ys : List LatLng) :
    shoelaceSum (xs ++ p :: p :: ys) = shoelaceSum (xs ++ p :: ys) := by
  have hlast : ∀ (l : List LatLng) (h1 : l ++ p :: p :: ys ≠ []) (h2 : l ++ p :: ys ≠ []),
      (l ++ p :: p :: ys).getLast h1 = (l ++ p :: ys).getLast h2 := by
    intro l h1 h2
    have e1 : l ++ p :: p :: ys = (l ++ [p]) ++ (p :: ys) := by simp
    have h3 : (p :: ys : List LatLng) ≠ [] := by simp
    calc (l ++ p :: p :: ys).getLast h1
        = ((l ++ [p]) ++ (p :: ys)).getLast (by simp) := by
          congr 1
      _ = (p :: ys).getLast h3 := List.getLast_append' (l ++ [p]) (p :: ys) h3
      _ = (l ++ p :: ys).getLast h2 := (List.getLast_append' l (p :: ys) h3).symm
  cases xs with
  | nil =>
    simp only [List.nil_append]
    rw [shoelaceSum_structure p (p :: ys), shoelaceSum_structure p ys]
    have hc := consecSum_cyclicTerm_dup p ys []
    simp only [List.nil_append] at hc
    rw [hc]
    have hl := hlast [] (by simp) (by simp)
    simp only [List.nil_append] at hl
    rw [hl]
  | cons a xs =>
    have e1 : (a :: xs) ++ p :: p :: ys = a :: (xs ++ p :: p :: ys) := by simp
    have e2 : (a :: xs) ++ p :: ys = a :: (xs ++ p :: ys) := by simp
    rw [e1, e2, shoelaceSum_structure a (xs ++ p :: p :: ys),
      shoelaceSum_structure a (xs ++ p :: ys)]
    have hc := consecSum_cyclicTerm_dup p ys (a :: xs)
    simp only [List.cons_append] at hc
    rw [hc]
    congr 2
    exact hlast (a :: xs) (by simp) (by simp)

/-- A two-point ring has zero shoelace sum (the two wrap terms cancel). -/
theorem shoelaceSum_pair (a b : LatLng) : shoelaceSum [a, b] = 0 := by
  rw [shoelaceSum_structure a [b]]
  simp only [consecSum_cons₂, consecSum_single, List.getLast_cons_cons,
    List.getLast_singleton']
  unfold cyclicTerm
  ring

/-- Inserting a consecutive duplicate vertex does not change the computed
polygon area. -/
theorem calculateArea_dup (p : LatLng) (xs ys : List LatLng) :
    calculateArea (xs ++ p :: p :: ys) = calculateArea (xs ++ p :: ys) := by
  unfold calculateArea
  have hlen : (xs ++ p :: p :: ys).length = (xs ++ p :: ys).length + 1 := by
    simp; omega
  by_cases h3 : (xs ++ p :: ys).length < 3
  · by_cases h2 : (xs ++ p :: p :: ys).length < 3
    · have c2 : (xs ++ p :: p :: ys).length < 3 := h2
      have c3 : (xs ++ p :: ys).length < 3 := h3
      simp only [List.length_append, List.length_cons] at c2 c3
      simp [c2, c3]
    · -- the duplicated list has exactly 3 points, so the original has 2:
      -- its ring degenerates and the shoelace sum is 0
      have hlen2 : (xs ++ p :: ys).length = 2 := by omega
      simp only [h2, reduceIte, h3]
      rw [shoelaceSum_dup p xs ys]
      -- a length-2 list is [c, d] for some c, d
      match xs, hx : xs ++ p :: ys, hlen2 with
      | _, [c, d], _ =>
        rw [shoelaceSum_pair]
        simp
  · have h2 : ¬ (xs ++ p :: p :: ys).length < 3 := by omega
    simp only [h2, reduceIte, h3]
    rw [shoelaceSum_dup p xs ys]

/-- The haversine distance from a point to itself is zero:
`a = 0`, so `c = 2*atan2(0, 1) = 0`. -/
theorem calculateDistance_self (p : LatLng) : calculateDistance p p = 0 := by
  unfold calculateDistance
  simp only [sub_self, zero_mul, zero_div, Real.sin_zero, mul_zero, zero_add,
    add_zero, sub_zero, Real.sqrt_zero, Real.sqrt_one]
  unfold atan2
  norm_num [Real.arctan_zero]

/-- Appending a point to a nonempty path lengthens the total distance by
exactly the distance from the previous last point to the new one. -/
theorem calculateTotalDistance_append_last (pts : List LatLng) (h : pts ≠ [])
    (c : LatLng) :
    calculateTotalDistance (pts ++ [c]) =
      calculateTotalDistance pts + calculateDistance (pts.getLast h) c := by
  rw [calculateTotalDistance_eq_consecSum, calculateTotalDistance_eq_consecSum,
    consecSum_append_last calculateDistance pts h c]

/-- The total distance of a path with fewer than 2 points is zero. -/
theorem calculateTotalDistance_short (pts : List LatLng) (h : pts.length < 2) :
    calculateTotalDistance pts = 0 := by
  match pts, h with
  | [], _ => rfl
  | [a], _ => rfl

/-- The computed area of fewer than 3 points is zero (first branch of
`calculateArea`). -/
theorem calculateArea_short (pts : List LatLng) (h : pts.length < 3) :
    calculateArea pts = 0 := by
  simp [calculateArea, h]

/-- **C8.** The computed polygon area of a list of at least 3 points is
invariant under cyclic rotation of the list (e.g. `[A, B, C]` versus
`[B, C, A]`), exactly over real arithmetic: the closed ring is the same. -/
theorem calculateArea_rotate (l : List LatLng) (h : 3 ≤ l.length) :
    calculateArea (l.rotate 1) = calculateArea l := by
  match l, h with
  | a :: b :: xs, hh =>
    have hrot : (a :: b :: xs).rotate 1 = (b :: xs) ++ [a] := by
      rw [List.rotate_cons_succ, List.rotate_zero]
    rw [hrot]
    unfold calculateArea
    have hlen : ((b :: xs) ++ [a]).length = (a :: b :: xs).length := by simp
    rw [hlen]
    by_cases h3 : (a :: b :: xs).length < 3
    · exact absurd h3 (by simp at hh ⊢; omega)
    · simp only [h3, reduceIte]
      have hS : shoelaceSum ((b :: xs) ++ [a]) = shoelaceSum (a :: b :: xs) := by
        have e1 : (b :: xs) ++ [a] = b :: (xs ++ [a]) := by simp
        rw [e1, shoelaceSum_structure b (xs ++ [a]),
          shoelaceSum_structure a (b :: xs)]
        have hc : consecSum cyclicTerm (b :: (xs ++ [a])) =
            consecSum cyclicTerm (b :: xs) +
              cyclicTerm ((b :: xs).getLast (by simp)) a := by
          have := consecSum_append_last cyclicTerm (b :: xs) (by simp) a
          simpa using this
        rw [hc]
        have hl1 : (b :: (xs ++ [a])).getLast (by simp) = a := by
          have : (b :: (xs ++ [a])) = (b :: xs) ++ [a] := by simp
          rw [List.getLast_congr _ _ this, List.getLast_append_singleton]
        have hl2 : (a :: b :: xs).getLast (by simp) = (b :: xs).getLast (by simp) :=
          List.getLast_cons _
        rw [hl1, hl2, consecSum_cons₂]
        ring
      rw [hS]

/-- Closed instance of `calculateArea_rotate` at a concrete triangle. -/
theorem calculateArea_rotate_witness :
    3 ≤ ([⟨0, 0⟩, ⟨0, 1⟩, ⟨1, 1⟩] : List LatLng).length ∧
      calculateArea (([⟨0, 0⟩, ⟨0, 1⟩, ⟨1, 1⟩] : List LatLng).rotate 1) =
        calculateArea ([⟨0, 0⟩, ⟨0, 1⟩, ⟨1, 1⟩] : List LatLng) :=
  ⟨by decide, calculateArea_rotate [⟨0, 0⟩, ⟨0, 1⟩, ⟨1, 1⟩] (by decide)⟩

/-- **C9.** Duplicate or coincident points contribute nothing: the pairwise
distance from a point to itself is `0`, appending a duplicate of the last
point leaves the total path distance unchanged, and inserting a consecutive
duplicate vertex leaves the shoelace sum — and hence the computed area —
unchanged. -/
theorem duplicate_points_zero_contribution (p : LatLng) (pts xs ys : List LatLng)
    (h : pts ≠ []) :
    calculateDistance p p = 0 ∧
    calculateTotalDistance (pts ++ [pts.getLast h]) = calculateTotalDistance pts ∧
    shoelaceSum (xs ++ p :: p :: ys) = shoelaceSum (xs ++ p :: ys) ∧
    calculateArea (xs ++ p :: p :: ys) = calculateArea (xs ++ p :: ys) := by
  refine ⟨calculateDistance_self p, ?_, shoelaceSum_dup p xs ys, calculateArea_dup p xs ys⟩
  rw [calculateTotalDistance_append_last pts h, calculateDistance_self, add_zero]

/-- Closed instance of `duplicate_points_zero_contribution` at the origin. -/
theorem duplicate_points_zero_contribution_witness :
    ([(⟨0, 0⟩ : LatLng)] ≠ []) ∧
      (calculateDistance ⟨0, 0⟩ ⟨0, 0⟩ = 0 ∧
        calculateTotalDistance ([⟨0, 0⟩] ++ [([(⟨0, 0⟩ : LatLng)]).getLast (by simp)]) =
          calculateTotalDistance [⟨0, 0⟩] ∧
        shoelaceSum ([] ++ (⟨0, 0⟩ : LatLng) :: ⟨0, 0⟩ :: []) =
          shoelaceSum ([] ++ (⟨0, 0⟩ : LatLng) :: []) ∧
        calculateArea ([] ++ (⟨0, 0⟩ : LatLng) :: ⟨0, 0⟩ :: []) =
          calculateArea ([] ++ (⟨0, 0⟩ : LatLng) :: [])) :=
  ⟨by simp, duplicate_points_zero_contribution ⟨0, 0⟩ [⟨0, 0⟩] [] [] (by simp)⟩

/-- A fresh `startMeasurement` on an attached map yields a consistent
session. -/
theorem consistent_start (md : MMode) (s : Session) :
    Consistent (startMeasurement true (some md) s) := by
  unfold startMeasurement Consistent
  simp [calculateTotalDistance, calculateArea]

/-- A map click preserves the derived-state invariant. -/
theorem consistent_click (c : LatLng) (s : Session) (h : Consistent s) :
    Consistent (handleMapClick c s) := by
  obtain ⟨hd, ha⟩ := h
  unfold handleMapClick
  by_cases hl : s.listening = true
  · simp only [hl, not_true_eq_false, if_false]
    rcases hmode : s.mode with _ | md
    · constructor <;> intro hx <;> simp [hmode] at hx
    · cases md
      · -- distance mode
        obtain ⟨hdist, hpoly, hpolyg, harea⟩ := hd hmode
        by_cases hlen : (s.points ++ [c]).length > 1
        · simp only [hlen, reduceIte]
          constructor
          · intro _
            refine ⟨rfl, ?_, hpolyg, harea⟩
            dsimp only
            split
            · rfl
            · exfalso; omega
          · intro hx
            simp [hmode] at hx
        · simp only [hlen, reduceIte]
          have hnil : s.points = [] := by
            simp only [List.length_append, List.length_cons] at hlen
            have : s.points.length = 0 := by omega
            exact List.length_eq_zero.mp this
          constructor
          · intro _
            refine ⟨?_, ?_, hpolyg, harea⟩
            · rw [hdist, hnil]
              rw [calculateTotalDistance_short [] (by simp),
                calculateTotalDistance_short ([] ++ [c]) (by simp)]
            · rw [hpoly, hnil]
              simp
          · intro hx
            simp [hmode] at hx
      · -- area mode
        obtain ⟨harea, hpolyg, hpoly, hdist⟩ := ha hmode
        by_cases hlen : (s.points ++ [c]).length > 2
        · simp only [hlen, reduceIte]
          constructor
          · intro hx
            simp [hmode] at hx
          · intro _
            refine ⟨rfl, ?_, hpoly, hdist⟩
            dsimp only
            split
            · rfl
            · exfalso; omega
        · simp only [hlen, reduceIte]
          have hshort : (s.points ++ [c]).length < 3 := by omega
          constructor
          · intro hx
            simp [hmode] at hx
          · intro _
            refine ⟨?_, ?_, hpoly, hdist⟩
            · rw [harea, calculateArea_short (s.points ++ [c]) hshort,
                calculateArea_short s.points (by simp at hshort; omega)]
            · rw [hpolyg]
              simp only [List.length_append, List.length_cons] at hshort ⊢
              have h1 : ¬ 3 ≤ s.points.length := by omega
              have h2 : ¬ 3 ≤ s.points.length + 1 := by omega
              simp [h1, h2]
  · simp only [Bool.not_eq_true] at hl
    simp only [hl, Bool.false_eq_true, not_false_eq_true, if_true]
    exact ⟨hd, ha⟩

/-- Undoing the last point preserves the derived-state invariant. -/
theorem consistent_undo (s : Session) (h : Consistent s) :
    Consistent (undoLastPoint s) := by
  obtain ⟨hd, ha⟩ := h
  unfold undoLastPoint
  by_cases hn : s.points.length = 0
  · simp only [hn, reduceIte]
    exact ⟨hd, ha⟩
  · simp only [hn, reduceIte]
    rcases hmode : s.mode with _ | md
    · constructor <;> intro hx <;> simp [hmode] at hx
    · cases md
      · -- distance mode
        obtain ⟨hdist, hpoly, hpolyg, harea⟩ := hd hmode
        by_cases hlen : s.points.dropLast.length > 1
        · simp only [hlen, reduceIte]
          constructor
          · intro _
            refine ⟨rfl, ?_, hpolyg, harea⟩
            have h2 : 2 ≤ s.points.length := by
              rw [List.length_dropLast] at hlen; omega
            rw [hpoly]
            have h2' : 2 ≤ s.points.length - 1 := by
              rw [List.length_dropLast] at hlen; omega
            simp [h2, List.length_dropLast, h2']
          · intro hx
            simp [hmode] at hx
        · simp only [hlen, reduceIte]
          constructor
          · intro _
            refine ⟨?_, ?_, hpolyg, harea⟩
            · exact (calculateTotalDistance_short s.points.dropLast (by omega)).symm
            · have hno : ¬ 2 ≤ s.points.dropLast.length := by omega
              simp only [List.length_dropLast] at hno
              simp [List.length_dropLast, hno]
          · intro hx
            simp [hmode] at hx
      · -- area mode
        obtain ⟨harea, hpolyg, hpoly, hdist⟩ := ha hmode
        by_cases hlen : s.points.dropLast.length > 2
        · simp only [hlen, reduceIte]
          constructor
          · intro hx
            simp [hmode] at hx
          · intro _
            refine ⟨rfl, ?_, hpoly, hdist⟩
            have h3 : 3 ≤ s.points.length := by
              rw [List.length_dropLast] at hlen; omega
            rw [hpolyg]
            have h3' : 3 ≤ s.points.length - 1 := by
              rw [List.length_dropLast] at hlen; omega
            simp [h3, List.length_dropLast, h3']
        · simp only [hlen, reduceIte]
          constructor
          · intro hx
            simp [hmode] at hx
          · intro _
            refine ⟨?_, ?_, hpoly, hdist⟩
            · exact (calculateArea_short s.points.dropLast (by omega)).symm
            · have hno : ¬ 3 ≤ s.points.dropLast.length := by omega
              simp only [List.length_dropLast] at hno
              simp [List.length_dropLast, hno]

/-- Every reachable active state satisfies the derived-state invariant. -/
theorem reachableActive_consistent {s : Session} (hs : ReachableActive s) :
    Consistent s := by
  induction hs with
  | start md s => exact consistent_start md s
  | click c hs ih => exact consistent_click _ _ ih
  | undo hs ih => exact consistent_undo _ ih

/-- **C7.** In every state reachable by `addPoint` and `undoLastPoint`
while a mode is active: in Distance mode the polyline overlay is absent
for 0 or 1 points and present (tracking the point list) for at least 2;
in Area mode the polygon overlay is absent for up to 2 points and present
for at least 3. -/
theorem overlay_threshold (s : Session) (hs : ReachableActive s) :
    (s.mode = some MMode.distance →
        (s.points.length ≤ 1 → s.polyline = none) ∧
        (2 ≤ s.points.length → s.polyline = some s.points)) ∧
    (s.mode = some MMode.area →
        (s.points.length ≤ 2 → s.polygon = none) ∧
        (3 ≤ s.points.length → s.polygon = some s.points)) := by
  obtain ⟨hd, ha⟩ := reachableActive_consistent hs
  constructor
  · intro hmode
    obtain ⟨_, hpoly, _, _⟩ := hd hmode
    constructor
    · intro hle
      rw [hpoly, if_neg (by omega)]
    · intro hge
      rw [hpoly, if_pos hge]
  · intro hmode
    obtain ⟨_, hpolyg, _, _⟩ := ha hmode
    constructor
    · intro hle
      rw [hpolyg, if_neg (by omega)]
    · intro hge
      rw [hpolyg, if_pos hge]

/-- Closed instance of `overlay_threshold` at the state produced by a
fresh Distance-mode `startMeasurement`. -/
theorem overlay_threshold_witness :
    ReachableActive (startMeasurement true (some MMode.distance) initialSession) ∧
      ((startMeasurement true (some MMode.distance) initialSession).mode =
            some MMode.distance →
          ((startMeasurement true (some MMode.distance) initialSession).points.length ≤ 1 →
            (startMeasurement true (some MMode.distance) initialSession).polyline = none) ∧
          (2 ≤ (startMeasurement true (some MMode.distance) initialSession).points.length →
            (startMeasurement true (some MMode.distance) initialSession).polyline =
              some (startMeasurement true (some MMode.distance) initialSession).points)) ∧
      ((startMeasurement true (some MMode.distance) initialSession).mode =
            some MMode.area →
          ((startMeasurement true (some MMode.distance) initialSession).points.length ≤ 2 →
            (startMeasurement true (some MMode.distance) initialSession).polygon = none) ∧
          (3 ≤ (startMeasurement true (some MMode.distance) initialSession).points.length →
            (startMeasurement true (some MMode.distance) initialSession).polygon =
              some (startMeasurement true (some MMode.distance) initialSession).points)) := by
  refine ⟨ReachableActive.start MMode.distance initialSession, ?_⟩
  exact overlay_threshold _ (ReachableActive.start MMode.distance initialSession)

/-- **C4.** While a mode is active, on any session state satisfying the
data model's derived-state invariant (which every reachable state does,
`reachableActive_consistent`), a map click adding a point followed
immediately by `undoLastPoint` restores the whole session exactly:
points, cumulative distance and area, overlay presence and vertex list,
and markers. -/
theorem addPoint_undo_restores (s : Session) (c : LatLng) (md : MMode)
    (hcons : Consistent s) (hmode : s.mode = some md) (hl : s.listening = true) :
    undoLastPoint (handleMapClick c s) = s := by
  obtain ⟨hd, ha⟩ := hcons
  unfold handleMapClick
  simp only [hl, not_true_eq_false, if_false]
  have h0 : ¬ ((s.points ++ [c]).length = 0) := by simp
  cases md with
  | distance =>
    obtain ⟨hdist, hpoly, hpolyg, harea⟩ := hd hmode
    simp only [hmode]
    by_cases hlen : (s.points ++ [c]).length > 1
    · simp only [hlen, reduceIte]
      unfold undoLastPoint
      simp only [h0, reduceIte, List.dropLast_concat]
      have hlen1 : 1 ≤ s.points.length := by
        simp only [List.length_append, List.length_cons, List.length_nil] at hlen
        omega
      by_cases h2 : s.points.length > 1
      · simp only [h2, reduceIte]
        refine Session.ext hmode.symm rfl hdist.symm rfl ?_ rfl rfl hl.symm
        rw [hpoly, if_pos (by omega : 2 ≤ s.points.length)]
        rfl
      · simp only [h2, reduceIte]
        refine Session.ext hmode.symm rfl ?_ rfl ?_ rfl rfl hl.symm
        · exact (hdist.trans (calculateTotalDistance_short s.points (by omega))).symm
        · rw [hpoly, if_neg (by omega)]
    · simp only [hlen, reduceIte]
      unfold undoLastPoint
      simp only [h0, reduceIte, List.dropLast_concat]
      have hlen0 : s.points.length = 0 := by
        simp only [List.length_append, List.length_cons, List.length_nil] at hlen
        omega
      have hcond : ¬ (s.points.length > 1) := by omega
      simp only [hcond, reduceIte]
      refine Session.ext hmode.symm rfl ?_ rfl ?_ rfl rfl hl.symm
      · exact (hdist.trans (calculateTotalDistance_short s.points (by omega))).symm
      · rw [hpoly, if_neg (by omega)]
  | area =>
    obtain ⟨harea, hpolyg, hpoly, hdist⟩ := ha hmode
    simp only [hmode]
    by_cases hlen : (s.points ++ [c]).length > 2
    · simp only [hlen, reduceIte]
      unfold undoLastPoint
      simp only [h0, reduceIte, List.dropLast_concat]
      have hlen2 : 2 ≤ s.points.length := by
        simp only [List.length_append, List.length_cons, List.length_nil] at hlen
        omega
      by_cases h3 : s.points.length > 2
      · simp only [h3, reduceIte]
        refine Session.ext hmode.symm rfl rfl harea.symm rfl ?_ rfl hl.symm
        rw [hpolyg, if_pos (by omega : 3 ≤ s.points.length)]
        rfl
      · simp only [h3, reduceIte]
        refine Session.ext hmode.symm rfl rfl ?_ rfl ?_ rfl hl.symm
        · exact (harea.trans (calculateArea_short s.points (by omega))).symm
        · rw [hpolyg, if_neg (by omega)]
    · simp only [hlen, reduceIte]
      unfold undoLastPoint
      simp only [h0, reduceIte, List.dropLast_concat]
      have hlen1 : s.points.length ≤ 1 := by
        simp only [List.length_append, List.length_cons, List.length_nil] at hlen
        omega
      have hcond : ¬ (s.points.length > 2) := by omega
      simp only [hcond, reduceIte]
      refine Session.ext hmode.symm rfl rfl ?_ rfl ?_ rfl hl.symm
      · exact (harea.trans (calculateArea_short s.points (by omega))).symm
      · rw [hpolyg, if_neg (by omega)]

/-- The sample session satisfies the derived-state invariant. -/
theorem sampleDistanceSession_consistent : Consistent sampleDistanceSession := by
  constructor
  · intro _
    refine ⟨rfl, by simp [sampleDistanceSession], rfl, rfl⟩
  · intro hx
    simp [sampleDistanceSession] at hx

/-- Closed instance of `addPoint_undo_restores`: one click undone on a
fresh Distance-mode session with a single captured point. -/
theorem addPoint_undo_restores_witness :
    Consistent sampleDistanceSession ∧
      sampleDistanceSession.mode = some MMode.distance ∧
      sampleDistanceSession.listening = true ∧
      undoLastPoint (handleMapClick ⟨0, 1⟩ sampleDistanceSession) =
        sampleDistanceSession :=
  ⟨sampleDistanceSession_consistent, rfl, rfl,
    addPoint_undo_restores sampleDistanceSession ⟨0, 1⟩ MMode.distance
      sampleDistanceSession_consistent rfl rfl⟩

/-- **C3.** While Distance mode is active on a session satisfying the
derived-state invariant, with point list ending in `p`, a map click at `c`
grows the cumulative distance by exactly the pairwise haversine distance
from `p` to `c`; and the total path distance of fewer than 2 points is
zero. -/
theorem cumulativeDistance_recurrence (s : Session) (c p : LatLng)
    (pts0 : List LatLng) (hcons : Consistent s)
    (hmode : s.mode = some MMode.distance) (hl : s.listening = true)
    (hp : s.points = pts0 ++ [p]) :
    (handleMapClick c s).distance = s.distance + calculateDistance p c ∧
    (∀ pts : List LatLng, pts.length < 2 → calculateTotalDistance pts = 0) := by
  obtain ⟨hd, _⟩ := hcons
  obtain ⟨hdist, _, _, _⟩ := hd hmode
  refine ⟨?_, fun pts h => calculateTotalDistance_short pts h⟩
  unfold handleMapClick
  simp only [hl, not_true_eq_false, if_false, hmode]
  have hlen : (s.points ++ [c]).length > 1 := by
    rw [hp]; simp
  simp only [hlen, reduceIte]
  show calculateTotalDistance (s.points ++ [c]) = s.distance + calculateDistance p c
  rw [hp, calculateTotalDistance_append_last (pts0 ++ [p]) (by simp) c,
    List.getLast_append_singleton, ← hp, ← hdist]

/-- Closed instance of `cumulativeDistance_recurrence`: the second click on
a fresh Distance-mode session. -/
theorem cumulativeDistance_recurrence_witness :
    Consistent sampleDistanceSession ∧
      sampleDistanceSession.mode = some MMode.distance ∧
      sampleDistanceSession.listening = true ∧
      sampleDistanceSession.points = [] ++ [⟨0, 0⟩] ∧
      ((handleMapClick ⟨0, 1⟩ sampleDistanceSession).distance =
          sampleDistanceSession.distance + calculateDistance ⟨0, 0⟩ ⟨0, 1⟩ ∧
        (∀ pts : List LatLng, pts.length < 2 → calculateTotalDistance pts = 0)) :=
  ⟨sampleDistanceSession_consistent, rfl, rfl, rfl,
    cumulativeDistance_recurrence sampleDistanceSession ⟨0, 1⟩ ⟨0, 0⟩ []
      sampleDistanceSession_consistent rfl rfl rfl⟩

/-- **C5.** `clearMeasurement` on an attached map resets the session fully,
whatever state any sequence of operations left it in: Inactive mode, empty
point list, zero cumulative distance and area, no overlay and no anchor
markers on the map. -/
theorem clear_resets (s : Session) :
    (clearMeasurement true s).mode = none ∧
    (clearMeasurement true s).points = [] ∧
    (clearMeasurement true s).distance = 0 ∧
    (clearMeasurement true s).area = 0 ∧
    (clearMeasurement true s).polyline = none ∧
    (clearMeasurement true s).polygon = none ∧
    (clearMeasurement true s).markers = [] := by
  simp [clearMeasurement]

/-- **C6.** `finishMeasurement` on an attached map leaves points, totals,
overlays and markers exactly as they were; only the mode becomes Inactive
and click-listening stops, so a subsequent map click changes nothing. -/
theorem finish_preserves (s : Session) (c : LatLng) :
    (finishMeasurement true s).points = s.points ∧
    (finishMeasurement true s).distance = s.distance ∧
    (finishMeasurement true s).area = s.area ∧
    (finishMeasurement true s).polyline = s.polyline ∧
    (finishMeasurement true s).polygon = s.polygon ∧
    (finishMeasurement true s).markers = s.markers ∧
    (finishMeasurement true s).mode = none ∧
    (finishMeasurement true s).listening = false ∧
    handleMapClick c (finishMeasurement true s) = finishMeasurement true s := by
  unfold finishMeasurement handleMapClick
  simp

/-- **C10.** With no map attached (`map` ref still null), `startMeasurement`,
`clearMeasurement` and `finishMeasurement` all return immediately and leave
the whole session state untouched — in particular a `clear` with no map
does not reset the session. -/
theorem nullMap_operations_noop (s : Session) (md : Option MMode) :
    startMeasurement false md s = s ∧
    clearMeasurement false s = s ∧
    finishMeasurement false s = s := by
  unfold startMeasurement clearMeasurement finishMeasurement
  simp

end Measurement
